import Mathlib

/-!
Verification development for the openwebrx SDR source-management core
(`owrx/sdr.py`) and reporting engine (`owrx/reporting.py`).

The Python classes are shallowly embedded as pure Lean functions over
explicit state records.  Python `dict`s backing `PropertyLayer` are
embedded as association lists; `PropertyLayer` itself is not part of the
given sources, so its mapping semantics are modelled from the spec
(an "ordered mapping from id to value": deleting an absent key is a
missing-key fault, mirroring Python mapping semantics and the guarded
deletes the source itself uses where absence is expected).  Fallible
operations return `Option`, with `none` standing for a raised `KeyError`.
-/

/-! ## Association-list maps (embedding of Python dicts) -/

def lookupA [DecidableEq κ] : List (κ × α) → κ → Option α
  | [], _ => none
  | (k, v) :: t, q => if k = q then some v else lookupA t q

def insertA [DecidableEq κ] : List (κ × α) → κ → α → List (κ × α)
  | [], q, v => [(q, v)]
  | (k, w) :: t, q, v => if k = q then (q, v) :: t else (k, w) :: insertA t q v

def eraseA [DecidableEq κ] : List (κ × α) → κ → List (κ × α)
  | [], _ => []
  | (k, w) :: t, q => if k = q then eraseA t q else (k, w) :: eraseA t q

def containsA [DecidableEq κ] (m : List (κ × α)) (q : κ) : Bool :=
  (lookupA m q).isSome

theorem lookupA_insertA [DecidableEq κ] (m : List (κ × α)) (q r : κ) (v : α) :
    lookupA (insertA m q v) r = if q = r then some v else lookupA m r := by
  induction m with
  | nil => simp [insertA, lookupA]
  | cons h t ih =>
    obtain ⟨k, w⟩ := h
    by_cases hk : k = q
    · subst hk
      by_cases hr : k = r <;> simp [insertA, lookupA, hr]
    · by_cases hr : k = r
      · subst hr
        have : ¬ q = k := fun h => hk h.symm
        simp [insertA, lookupA, hk, this]
      · simp [insertA, lookupA, hk, hr, ih]

theorem lookupA_eraseA [DecidableEq κ] (m : List (κ × α)) (q r : κ) :
    lookupA (eraseA m q) r = if q = r then none else lookupA m r := by
  induction m with
  | nil => simp [eraseA, lookupA]
  | cons h t ih =>
    obtain ⟨k, w⟩ := h
    by_cases hk : k = q
    · subst hk
      by_cases hr : k = r
      · subst hr
        simp [eraseA, lookupA, ih]
      · simp [eraseA, lookupA, hr, ih]
    · by_cases hr : k = r
      · subst hr
        have : ¬ q = k := fun h => hk h.symm
        simp [eraseA, lookupA, hk, this, ih]
      · simp [eraseA, lookupA, hk, hr, ih]

theorem containsA_insertA [DecidableEq κ] (m : List (κ × α)) (q r : κ) (v : α) :
    containsA (insertA m q v) r = if q = r then true else containsA m r := by
  by_cases h : q = r <;> simp [containsA, lookupA_insertA, h]

theorem containsA_eraseA [DecidableEq κ] (m : List (κ × α)) (q r : κ) :
    containsA (eraseA m q) r = if q = r then false else containsA m r := by
  by_cases h : q = r <;> simp [containsA, lookupA_eraseA, h]

theorem eraseA_of_not_mem [DecidableEq κ] (m : List (κ × α)) (q : κ)
    (h : lookupA m q = none) : eraseA m q = m := by
  induction m with
  | nil => rfl
  | cons p t ih =>
    obtain ⟨k, w⟩ := p
    by_cases hk : k = q
    · subst hk
      simp [lookupA] at h
    · simp [lookupA, hk] at h
      simp [eraseA, hk, ih h]

theorem eraseA_insertA_fresh [DecidableEq κ] (m : List (κ × α)) (q : κ) (v : α)
    (h : lookupA m q = none) : eraseA (insertA m q v) q = m := by
  induction m with
  | nil => simp [insertA, eraseA]
  | cons p t ih =>
    obtain ⟨k, w⟩ := p
    by_cases hk : k = q
    · subst hk
      simp [lookupA] at h
    · simp [lookupA, hk] at h
      have hqk : ¬ q = k := fun hh => hk hh.symm
      simp [insertA, eraseA, hk, ih h]

theorem lookupA_mem [DecidableEq κ] {m : List (κ × α)} {q : κ} {v : α}
    (h : lookupA m q = some v) : (q, v) ∈ m := by
  induction m with
  | nil => simp [lookupA] at h
  | cons p t ih =>
    obtain ⟨k, w⟩ := p
    by_cases hk : k = q
    · subst hk
      simp [lookupA] at h
      simp [h]
    · simp [lookupA, hk] at h
      exact List.mem_cons_of_mem _ (ih h)

/-! ## String sets (embedding of key membership in a PropertyLayer) -/

def memS : List String → String → Bool
  | [], _ => false
  | x :: t, q => if x = q then true else memS t q

def insertS (l : List String) (q : String) : List String :=
  if memS l q then l else l ++ [q]

def eraseS : List String → String → List String
  | [], _ => []
  | x :: t, q => if x = q then eraseS t q else x :: eraseS t q

theorem memS_append (l₁ l₂ : List String) (r : String) :
    memS (l₁ ++ l₂) r = (memS l₁ r || memS l₂ r) := by
  induction l₁ with
  | nil => simp [memS]
  | cons x t ih =>
    by_cases hx : x = r <;> simp [memS, hx, ih]

theorem memS_insertS (l : List String) (q r : String) :
    memS (insertS l q) r = (if q = r then true else memS l r) := by
  by_cases hq : memS l q
  · by_cases hr : q = r
    · subst hr
      simp [insertS, hq]
    · simp [insertS, hq, hr]
  · by_cases hr : q = r
    · subst hr
      simp [insertS, hq, memS_append, memS]
    · simp [insertS, hq, memS_append, memS, hr]

theorem memS_eraseS (l : List String) (q r : String) :
    memS (eraseS l q) r = (if q = r then false else memS l r) := by
  induction l with
  | nil => simp [eraseS, memS]
  | cons x t ih =>
    by_cases hx : x = q
    · subst hx
      by_cases hr : x = r
      · subst hr
        simp [eraseS, memS, ih]
      · simp [eraseS, memS, hr, ih]
    · by_cases hr : x = r
      · subst hr
        have : ¬ q = x := fun h => hx h.symm
        simp [eraseS, memS, hx, this]
      · simp [eraseS, memS, hx, hr, ih]

/-! ## DeviceRegistry: `MappedSdrSources` (owrx/sdr.py)

Proxies are represented by numeric identities handed out by
`buildNewSource`; Python object identity (`is`) becomes equality of these
identifiers, which is faithful because every built proxy gets a fresh one.
`log` records installations and `shutdown()` calls in program order.
The feature-availability oracle (`FeatureDetector`, external per the spec)
is a parameter `avail : String → Option Bool`; `none` plays the role of
`UnknownFeatureException`. -/

structure Device where
  tag : String
  deriving DecidableEq, Repr

inductive RegEvent
  | built (key : String) (p : Nat)
  | installed (key : String) (p : Nat)
  | shutdown (p : Nat)
  deriving DecidableEq, Repr

structure MState where
  cfg : List (String × Device)
  sources : List (String × Nat)
  nextP : Nat
  log : List RegEvent
  deriving DecidableEq, Repr

def initM : MState := ⟨[], [], 0, []⟩

/-- `MappedSdrSources._sdrTypeAvailable` / `isDeviceValid`: true only when
the oracle knows the type tag and reports it available. -/
def isDeviceValid (avail : String → Option Bool) (d : Device) : Bool :=
  match avail d.tag with
  | some true => true
  | _ => false

/-- `MappedSdrSources.buildNewSource`: constructs a fresh proxy for the key. -/
def buildNewSource (s : MState) (key : String) : Nat × MState :=
  (s.nextP, { s with nextP := s.nextP + 1, log := s.log ++ [.built key s.nextP] })

/-- `MappedSdrSources.__setitem__`: no-op when the identical proxy is stored;
otherwise install the new proxy, then shut the old one down if there was one. -/
def setItem (s : MState) (key : String) (v : Nat) : MState :=
  match lookupA s.sources key with
  | some old =>
    if old = v then s
    else { s with sources := insertA s.sources key v,
                  log := s.log ++ [.installed key v, .shutdown old] }
  | none => { s with sources := insertA s.sources key v,
                     log := s.log ++ [.installed key v] }

/-- `MappedSdrSources.__delitem__`: the underlying mapping delete faults on an
absent key (`none`); on a present key the proxy is removed and shut down. -/
def delItem (s : MState) (key : String) : Option MState :=
  match lookupA s.sources key with
  | some old =>
    some { s with sources := eraseA s.sources key, log := s.log ++ [.shutdown old] }
  | none => none

/-- `MappedSdrSources.handleDeviceUpdate`. -/
def handleDeviceUpdate (avail : String → Option Bool) (s : MState)
    (key : String) (d : Device) : Option MState :=
  if (!containsA s.sources key) && isDeviceValid avail d then
    let p := (buildNewSource s key).1
    let s1 := (buildNewSource s key).2
    some (setItem s1 key p)
  else if containsA s.sources key && (!isDeviceValid avail d) then
    delItem s key
  else
    some s

/-- `MappedSdrSources._addSource`. -/
def mAddSource (avail : String → Option Bool) (s : MState)
    (key : String) (d : Device) : Option MState :=
  handleDeviceUpdate avail s key d

/-- One entry of a ConfigView change batch: an upsert carrying the new
property set, or the deletion marker (`PropertyDeleted`). -/
inductive Change
  | upsert (d : Device)
  | deleted
  deriving DecidableEq, Repr

/-- One iteration of `MappedSdrSources.handleSdrDeviceChange`, paired with the
ConfigView mutation that produced the notification (the store updates first,
then the watcher runs). -/
def applyChange (avail : String → Option Bool) (s : MState) :
    String × Change → Option MState
  | (key, .deleted) =>
    let s1 : MState := { s with cfg := eraseA s.cfg key }
    if containsA s1.sources key then delItem s1 key else some s1
  | (key, .upsert d) =>
    let s1 : MState := { s with cfg := insertA s.cfg key d }
    if !containsA s1.sources key then mAddSource avail s1 key d else some s1

/-- `MappedSdrSources.handleSdrDeviceChange` over a whole batch. -/
def applyBatch (avail : String → Option Bool) :
    MState → List (String × Change) → Option MState
  | s, [] => some s
  | s, c :: t => (applyChange avail s c).bind (fun s1 => applyBatch avail s1 t)

/-- A sequence of change batches, processed in order. -/
def runBatches (avail : String → Option Bool) :
    MState → List (List (String × Change)) → Option MState
  | s, [] => some s
  | s, b :: t => (applyBatch avail s b).bind (fun s1 => runBatches avail s1 t)

/-- Every upsert in the batch sequence carries a valid device entry. -/
def allValidB (avail : String → Option Bool)
    (bss : List (List (String × Change))) : Bool :=
  bss.all (fun b => b.all (fun c =>
    match c.2 with
    | .upsert d => isDeviceValid avail d
    | .deleted => true))

/-! ### Characterization of one reconciliation step -/

theorem applyChange_deleted_present (avail : String → Option Bool) (s : MState)
    (key : String) (p : Nat) (h : lookupA s.sources key = some p) :
    applyChange avail s (key, Change.deleted) =
      some { s with cfg := eraseA s.cfg key, sources := eraseA s.sources key,
                    log := s.log ++ [.shutdown p] } := by
  simp [applyChange, containsA, delItem, h]

theorem applyChange_deleted_absent (avail : String → Option Bool) (s : MState)
    (key : String) (h : lookupA s.sources key = none) :
    applyChange avail s (key, Change.deleted) =
      some { s with cfg := eraseA s.cfg key } := by
  simp [applyChange, containsA, h]

theorem applyChange_upsert_present (avail : String → Option Bool) (s : MState)
    (key : String) (d : Device) (p : Nat) (h : lookupA s.sources key = some p) :
    applyChange avail s (key, Change.upsert d) =
      some { s with cfg := insertA s.cfg key d } := by
  simp [applyChange, containsA, h]

theorem applyChange_upsert_fresh_valid (avail : String → Option Bool) (s : MState)
    (key : String) (d : Device) (h : lookupA s.sources key = none)
    (hv : isDeviceValid avail d = true) :
    applyChange avail s (key, Change.upsert d) =
      some { s with cfg := insertA s.cfg key d,
                    sources := insertA s.sources key s.nextP,
                    nextP := s.nextP + 1,
                    log := s.log ++ [.built key s.nextP, .installed key s.nextP] } := by
  simp [applyChange, containsA, mAddSource, handleDeviceUpdate, buildNewSource,
    setItem, h, hv]

theorem applyChange_upsert_fresh_invalid (avail : String → Option Bool) (s : MState)
    (key : String) (d : Device) (h : lookupA s.sources key = none)
    (hv : isDeviceValid avail d = false) :
    applyChange avail s (key, Change.upsert d) =
      some { s with cfg := insertA s.cfg key d } := by
  simp [applyChange, containsA, mAddSource, handleDeviceUpdate, h, hv]

/-! ### Key-set invariants of the registry -/

def subKeys (s : MState) : Prop :=
  ∀ k, containsA s.sources k = true → containsA s.cfg k = true

def eqKeys (s : MState) : Prop :=
  ∀ k, containsA s.sources k = containsA s.cfg k

theorem subKeys_step {avail : String → Option Bool} {s s' : MState}
    {c : String × Change} (hs : subKeys s)
    (h : applyChange avail s c = some s') : subKeys s' := by
  obtain ⟨key, ch⟩ := c
  cases ch with
  | deleted =>
    cases hl : lookupA s.sources key with
    | some p =>
      rw [applyChange_deleted_present avail s key p hl] at h
      cases h
      intro k
      simp only [containsA_eraseA]
      by_cases hk : key = k
      · simp [hk]
      · simp only [if_neg hk]
        exact hs k
    | none =>
      rw [applyChange_deleted_absent avail s key hl] at h
      cases h
      intro k
      simp only [containsA_eraseA]
      by_cases hk : key = k
      · intro hcontr
        subst hk
        simp [containsA, hl] at hcontr
      · simp only [if_neg hk]
        exact hs k
  | upsert d =>
    cases hl : lookupA s.sources key with
    | some p =>
      rw [applyChange_upsert_present avail s key d p hl] at h
      cases h
      intro k
      simp only [containsA_insertA]
      by_cases hk : key = k
      · simp [hk]
      · simp only [if_neg hk]
        exact hs k
    | none =>
      cases hv : isDeviceValid avail d with
      | true =>
        rw [applyChange_upsert_fresh_valid avail s key d hl hv] at h
        cases h
        intro k
        simp only [containsA_insertA]
        by_cases hk : key = k
        · simp [hk]
        · simp only [if_neg hk]
          exact hs k
      | false =>
        rw [applyChange_upsert_fresh_invalid avail s key d hl hv] at h
        cases h
        intro k
        simp only [containsA_insertA]
        by_cases hk : key = k
        · simp [hk]
        · simp only [if_neg hk]
          exact hs k

theorem eqKeys_step {avail : String → Option Bool} {s s' : MState}
    {c : String × Change} (hs : eqKeys s)
    (hv : ∀ d, c.2 = Change.upsert d → isDeviceValid avail d = true)
    (h : applyChange avail s c = some s') : eqKeys s' := by
  obtain ⟨key, ch⟩ := c
  cases ch with
  | deleted =>
    cases hl : lookupA s.sources key with
    | some p =>
      rw [applyChange_deleted_present avail s key p hl] at h
      cases h
      intro k
      simp only [containsA_eraseA]
      by_cases hk : key = k
      · simp [hk]
      · simp only [if_neg hk]
        exact hs k
    | none =>
      rw [applyChange_deleted_absent avail s key hl] at h
      cases h
      intro k
      simp only [containsA_eraseA]
      by_cases hk : key = k
      · subst hk
        simp [containsA, hl]
      · simp only [if_neg hk]
        exact hs k
  | upsert d =>
    have hvd : isDeviceValid avail d = true := hv d rfl
    cases hl : lookupA s.sources key with
    | some p =>
      rw [applyChange_upsert_present avail s key d p hl] at h
      cases h
      intro k
      simp only [containsA_insertA]
      by_cases hk : key = k
      · subst hk
        simp [containsA, hl]
      · simp only [if_neg hk]
        exact hs k
    | none =>
      rw [applyChange_upsert_fresh_valid avail s key d hl hvd] at h
      cases h
      intro k
      simp only [containsA_insertA]
      by_cases hk : key = k
      · simp [hk]
      · simp only [if_neg hk]
        exact hs k

theorem subKeys_applyBatch {avail : String → Option Bool} {s s' : MState}
    {b : List (String × Change)} (hs : subKeys s)
    (h : applyBatch avail s b = some s') : subKeys s' := by
  induction b generalizing s with
  | nil =>
    simp [applyBatch] at h
    exact h ▸ hs
  | cons c t ih =>
    simp only [applyBatch] at h
    cases hc : applyChange avail s c with
    | none => simp [hc] at h
    | some s1 =>
      rw [hc] at h
      exact ih (subKeys_step hs hc) h

theorem eqKeys_applyBatch {avail : String → Option Bool} {s s' : MState}
    {b : List (String × Change)} (hs : eqKeys s)
    (hv : b.all (fun c =>
      match c.2 with
      | Change.upsert d => isDeviceValid avail d
      | Change.deleted => true) = true)
    (h : applyBatch avail s b = some s') : eqKeys s' := by
  induction b generalizing s with
  | nil =>
    simp [applyBatch] at h
    exact h ▸ hs
  | cons c t ih =>
    simp only [List.all_cons, Bool.and_eq_true] at hv
    simp only [applyBatch] at h
    cases hc : applyChange avail s c with
    | none => simp [hc] at h
    | some s1 =>
      rw [hc] at h
      refine ih (eqKeys_step hs ?_ hc) hv.2 h
      intro d hd
      have := hv.1
      rw [hd] at this
      exact this

theorem subKeys_runBatches {avail : String → Option Bool} {s s' : MState}
    {bss : List (List (String × Change))} (hs : subKeys s)
    (h : runBatches avail s bss = some s') : subKeys s' := by
  induction bss generalizing s with
  | nil =>
    simp [runBatches] at h
    exact h ▸ hs
  | cons b t ih =>
    simp only [runBatches] at h
    cases hb : applyBatch avail s b with
    | none => simp [hb] at h
    | some s1 =>
      rw [hb] at h
      exact ih (subKeys_applyBatch hs hb) h

theorem eqKeys_runBatches {avail : String → Option Bool} {s s' : MState}
    {bss : List (List (String × Change))} (hs : eqKeys s)
    (hv : allValidB avail bss = true)
    (h : runBatches avail s bss = some s') : eqKeys s' := by
  induction bss generalizing s with
  | nil =>
    simp [runBatches] at h
    exact h ▸ hs
  | cons b t ih =>
    simp only [allValidB, List.all_cons, Bool.and_eq_true] at hv
    simp only [runBatches] at h
    cases hb : applyBatch avail s b with
    | none => simp [hb] at h
    | some s1 =>
      rw [hb] at h
      exact ih (eqKeys_applyBatch hs hv.1 hb) hv.2 h

/-- Sample feature-availability oracle used for concrete runs: `rtlsdr` is
known and available, `airspy` known but unavailable on this host, anything
else unknown. -/
def availX : String → Option Bool := fun t =>
  if t = "rtlsdr" then some true
  else if t = "airspy" then some false
  else none

/-- C1 (amended): after any sequence of upsert/delete batches processed from
an initially empty ConfigView, DeviceRegistry's key set is contained in
ConfigView's key set, and the two key sets are equal whenever every processed
upsert carries a valid (known and host-available) type tag.  Keys whose
entries carry an unknown or host-unavailable type tag are rejected by
`handleDeviceUpdate` and are absent from the registry. -/
theorem C1_registry_keyset (avail : String → Option Bool)
    (bss : List (List (String × Change))) (s' : MState)
    (h : runBatches avail initM bss = some s') :
    (∀ k, containsA s'.sources k = true → containsA s'.cfg k = true) ∧
    (allValidB avail bss = true →
      ∀ k, containsA s'.sources k = containsA s'.cfg k) := by
  constructor
  · exact subKeys_runBatches (fun k h => by simp [initM, containsA, lookupA] at h) h
  · intro hv
    exact eqKeys_runBatches (fun k => by simp [initM, containsA, lookupA]) hv h

/-- Witness for C1: a concrete all-valid run where the registry and config
key sets agree. -/
theorem C1_registry_keyset_witness :
    allValidB availX [[("a", Change.upsert ⟨"rtlsdr"⟩)]] = true ∧
    containsA (MState.mk [("a", ⟨"rtlsdr"⟩)] [("a", 0)] 1
      [.built "a" 0, .installed "a" 0]).sources "a" =
    containsA (MState.mk [("a", ⟨"rtlsdr"⟩)] [("a", 0)] 1
      [.built "a" 0, .installed "a" 0]).cfg "a" :=
  ⟨by decide,
    (C1_registry_keyset availX [[("a", Change.upsert ⟨"rtlsdr"⟩)]]
      (MState.mk [("a", ⟨"rtlsdr"⟩)] [("a", 0)] 1
        [.built "a" 0, .installed "a" 0]) (by decide)).2 (by decide) "a"⟩

/-- Counterexample to C1 as stated: one upsert whose entry carries an unknown
type tag leaves the key in ConfigView but not in DeviceRegistry, so the key
sets differ. -/
theorem C1_registry_keyset_counterexample :
    runBatches availX initM [[("a", Change.upsert ⟨"bogus"⟩)]] =
      some (MState.mk [("a", ⟨"bogus"⟩)] [] 0 []) ∧
    containsA (MState.mk [("a", ⟨"bogus"⟩)] [] 0 []).cfg "a" = true ∧
    containsA (MState.mk [("a", ⟨"bogus"⟩)] [] 0 []).sources "a" = false ∧
    ¬ (∀ k, containsA (MState.mk [("a", ⟨"bogus"⟩)] [] 0 []).sources k =
            containsA (MState.mk [("a", ⟨"bogus"⟩)] [] 0 []).cfg k) := by
  refine ⟨by decide, by decide, by decide, fun hall => ?_⟩
  exact absurd (hall "a") (by decide)

/-- C3 (amended): a change-batch upsert for a key already present in
DeviceRegistry is a no-op on the registry: only the ConfigView entry is
updated; the existing proxy stays installed, no new proxy is built and no
shutdown is invoked.  (Install-new-then-shutdown-old replacement exists only
in the `__setitem__` primitive, which the batch path never reaches for a
present key.) -/
theorem C3_upsert_present_is_noop (avail : String → Option Bool) (s : MState)
    (key : String) (d : Device) (p : Nat)
    (h : lookupA s.sources key = some p) :
    applyChange avail s (key, Change.upsert d) =
      some { s with cfg := insertA s.cfg key d } ∧
    lookupA ({ s with cfg := insertA s.cfg key d } : MState).sources key = some p ∧
    ({ s with cfg := insertA s.cfg key d } : MState).log = s.log :=
  ⟨applyChange_upsert_present avail s key d p h, h, rfl⟩

/-- Witness for C3 (amended) at a concrete present-key upsert. -/
theorem C3_upsert_present_is_noop_witness :
    applyChange availX (MState.mk [("a", ⟨"rtlsdr"⟩)] [("a", 0)] 1
        [.built "a" 0, .installed "a" 0]) ("a", Change.upsert ⟨"rtlsdr"⟩) =
      some (MState.mk [("a", ⟨"rtlsdr"⟩)] [("a", 0)] 1
        [.built "a" 0, .installed "a" 0]) := by
  have := (C3_upsert_present_is_noop availX
    (MState.mk [("a", ⟨"rtlsdr"⟩)] [("a", 0)] 1
      [.built "a" 0, .installed "a" 0]) "a" ⟨"rtlsdr"⟩ 0 (by decide)).1
  rw [this]
  decide

/-- Counterexample to C3 as stated: re-upserting key `a` (still valid) in a
second batch does not replace the proxy and invokes no shutdown — the final
state is identical to the state after the first batch, with the original
proxy `0` still installed and no `.shutdown` entry in the log. -/
theorem C3_upsert_present_counterexample :
    runBatches availX initM
      [[("a", Change.upsert ⟨"rtlsdr"⟩)], [("a", Change.upsert ⟨"rtlsdr"⟩)]] =
      some (MState.mk [("a", ⟨"rtlsdr"⟩)] [("a", 0)] 1
        [.built "a" 0, .installed "a" 0]) ∧
    (MState.mk [("a", ⟨"rtlsdr"⟩)] [("a", 0)] 1
      [.built "a" 0, .installed "a" 0]).log.count (RegEvent.shutdown 0) = 0 := by
  decide

/-- C6: replacing a proxy via `__setitem__` appends exactly one `.shutdown`
of the old proxy, after the new one is installed; removing a present key via
`__delitem__` appends exactly one `.shutdown`; and an upsert storing the
identical proxy object already present leaves the state entirely unchanged
(no shutdown). -/
theorem C6_shutdown_exactly_once (s : MState) (key : String) (v old : Nat)
    (h : lookupA s.sources key = some old) :
    (old ≠ v → setItem s key v =
      { s with sources := insertA s.sources key v,
               log := s.log ++ [.installed key v, .shutdown old] }) ∧
    setItem s key old = s ∧
    delItem s key = some { s with sources := eraseA s.sources key,
                                  log := s.log ++ [.shutdown old] } := by
  refine ⟨fun hne => ?_, ?_, ?_⟩
  · simp [setItem, h, hne]
  · simp [setItem, h]
  · simp [delItem, h]

/-- Witness for C6 at a concrete registry state. -/
theorem C6_shutdown_exactly_once_witness :
    (5 ≠ 7 →
      setItem (MState.mk [("a", ⟨"rtlsdr"⟩)] [("a", 5)] 6 []) "a" 7 =
        MState.mk [("a", ⟨"rtlsdr"⟩)] [("a", 7)] 6
          [.installed "a" 7, .shutdown 5]) ∧
    setItem (MState.mk [("a", ⟨"rtlsdr"⟩)] [("a", 5)] 6 []) "a" 5 =
      MState.mk [("a", ⟨"rtlsdr"⟩)] [("a", 5)] 6 [] ∧
    delItem (MState.mk [("a", ⟨"rtlsdr"⟩)] [("a", 5)] 6 []) "a" =
      some (MState.mk [("a", ⟨"rtlsdr"⟩)] [] 6 [.shutdown 5]) := by
  have H := C6_shutdown_exactly_once
    (MState.mk [("a", ⟨"rtlsdr"⟩)] [("a", 5)] 6 []) "a" 7 5 (by decide)
  refine ⟨fun hne => ?_, ?_, ?_⟩
  · have := H.1 (by decide)
    rw [this]
    decide
  · have := H.2.1
    rw [this]
  · have := H.2.2
    rw [this]
    decide

/-! ## HealthView: `ActiveSdrSources` and `SourceStateHandler` (owrx/sdr.py)

The device proxies' health flags (`isEnabled`/`isFailed`) and their
lifecycle-listener list (`addClient`/`removeClient`) live in `SdrSource`,
which is outside the given sources.  Modelled from the spec: a device
carries `enabled`/`failed` flags and a list of registered lifecycle
listeners; `addLifecycleListener` appends, `removeLifecycleListener`
removes the given listener; firing a lifecycle event updates the flags
(fail/shutdown make the device unavailable, disable clears `enabled`,
enable sets it) and invokes the corresponding callback of every listener
registered on that device, in registration order.  StateHandlers are
identified by the numbers handed out at creation. -/

structure DevState where
  enabled : Bool
  failed : Bool
  deriving DecidableEq, Repr

/-- `ActiveSdrSources.isAvailable`. -/
def isAvailable (d : DevState) : Bool := d.enabled && !d.failed

structure SState where
  devs : List (String × DevState)
  layer : List String
  handlers : List (String × Nat)
  clients : List (String × List Nat)
  nextH : Nat
  deriving DecidableEq, Repr

def asInit : SState := ⟨[], [], [], [], 0⟩

/-- The listeners registered on device `k` (`SdrSource` client list). -/
def clientsOf (s : SState) (k : String) : List Nat :=
  (lookupA s.clients k).getD []

/-- `ActiveSdrSources._addSource`: insert into the overlay when available,
then unconditionally create a fresh `SourceStateHandler` and register it as
a client on the device. -/
def asAddSource (s : SState) (k : String) (d : DevState) : SState :=
  { devs := insertA s.devs k d,
    layer := if isAvailable d then insertS s.layer k else s.layer,
    handlers := insertA s.handlers k s.nextH,
    clients := insertA s.clients k (clientsOf s k ++ [s.nextH]),
    nextH := s.nextH + 1 }

/-- `ActiveSdrSources._removeSource`: `self.handlers[key]` faults when the
key is untracked; otherwise the stored handler deregisters itself from the
device (`selfDestruct`), is dropped from the tracking dict, and the overlay
entry is deleted if present. -/
def asRemoveSource (s : SState) (k : String) : Option SState :=
  match lookupA s.handlers k with
  | none => none
  | some h =>
    some { s with
      clients := insertA s.clients k ((clientsOf s k).erase h),
      handlers := eraseA s.handlers k,
      layer := if memS s.layer k then eraseS s.layer k else s.layer }

/-- The modelled `PropertyLayer` delete used by the state-handler callbacks:
`del pm[key]` faults (`none`) when the key is absent. -/
def pmDel (pm : List String) (key : String) : Option (List String) :=
  if memS pm key then some (eraseS pm key) else none

/-- `SourceStateHandler.onFail`: `del self.pm[self.key]`. -/
def onFail (pm : List String) (key : String) : Option (List String) :=
  pmDel pm key

/-- `SourceStateHandler.onDisable`: `del self.pm[self.key]`. -/
def onDisable (pm : List String) (key : String) : Option (List String) :=
  pmDel pm key

/-- `SourceStateHandler.onShutdown`: `del self.pm[self.key]`. -/
def onShutdown (pm : List String) (key : String) : Option (List String) :=
  pmDel pm key

/-- `SourceStateHandler.onEnable`: `self.pm[self.key] = self.source`. -/
def onEnable (pm : List String) (key : String) : Option (List String) :=
  some (insertS pm key)

inductive LifeEvent
  | fail
  | disable
  | enable
  | shutdown
  deriving DecidableEq, Repr

/-- Effect of a lifecycle transition on the device's own flags (modelled
from the spec's capability interface). -/
def applyEventDev (d : DevState) : LifeEvent → DevState
  | .fail => { d with failed := true }
  | .disable => { d with enabled := false }
  | .enable => { d with enabled := true }
  | .shutdown => { d with failed := true }

/-- Dispatch of one lifecycle callback on one `SourceStateHandler`; the
handler always targets the key it was created with. -/
def fireHandler (pm : List String) (key : String) :
    LifeEvent → Option (List String)
  | .fail => onFail pm key
  | .disable => onDisable pm key
  | .enable => onEnable pm key
  | .shutdown => onShutdown pm key

/-- Deliver the event to every listener registered on the device, in
registration order; a raised `KeyError` aborts delivery. -/
def fireClients (pm : List String) (key : String) (e : LifeEvent) :
    List Nat → Option (List String)
  | [] => some pm
  | _ :: t => (fireHandler pm key e).bind (fun pm1 => fireClients pm1 key e t)

/-- A device fires a lifecycle transition: its flags update, then every
registered `SourceStateHandler` callback mutates the HealthView overlay. -/
def fireEvent (s : SState) (k : String) (e : LifeEvent) : Option SState :=
  match lookupA s.devs k with
  | none => some s
  | some d =>
    let s1 : SState := { s with devs := insertA s.devs k (applyEventDev d e) }
    (fireClients s1.layer k e (clientsOf s1 k)).map
      (fun pm => { s1 with layer := pm })

def runEvents : SState → List (String × LifeEvent) → Option SState
  | s, [] => some s
  | s, (k, e) :: t => (fireEvent s k e).bind (fun s1 => runEvents s1 t)

/-- A registry change as seen by `ActiveSdrSources.handleSdrDeviceChange`:
an upsert carries the device proxy (here: its health flags), a deletion the
`PropertyDeleted` marker. -/
inductive AChange
  | upsert (d : DevState)
  | deleted
  deriving DecidableEq, Repr

/-- One iteration of `ActiveSdrSources.handleSdrDeviceChange`. -/
def asApplyChange (s : SState) : String × AChange → Option SState
  | (k, .deleted) => asRemoveSource s k
  | (k, .upsert d) => some (asAddSource s k d)

def asApplyBatch : SState → List (String × AChange) → Option SState
  | s, [] => some s
  | s, c :: t => (asApplyChange s c).bind (fun s1 => asApplyBatch s1 t)

def asRunBatches : SState → List (List (String × AChange)) → Option SState
  | s, [] => some s
  | s, b :: t => (asApplyBatch s b).bind (fun s1 => asRunBatches s1 t)

/-! ### Well-formedness of the HealthView bookkeeping -/

/-- Decidable check: every tracked key has exactly its stored handler
registered as the device's sole client, tracked keys have devices, and
untracked keys have no registered clients. -/
def wfChk (s : SState) : Bool :=
  s.handlers.all (fun kh =>
    (lookupA s.clients kh.1 == some [kh.2]) && containsA s.devs kh.1) &&
  s.clients.all (fun kc => containsA s.handlers kc.1 || (kc.2 == []))

/-- Propositional form of `wfChk`. -/
def WfP (s : SState) : Prop :=
  (∀ k h, lookupA s.handlers k = some h →
    lookupA s.clients k = some [h] ∧ containsA s.devs k = true) ∧
  (∀ k, containsA s.handlers k = false → clientsOf s k = [])

theorem wfChk_WfP {s : SState} (hw : wfChk s = true) : WfP s := by
  simp only [wfChk, Bool.and_eq_true, List.all_eq_true] at hw
  constructor
  · intro k h hl
    have hm := lookupA_mem hl
    have := hw.1 (k, h) hm
    simp only [Bool.and_eq_true, beq_iff_eq] at this
    exact this
  · intro k hk
    cases hc : lookupA s.clients k with
    | none => simp [clientsOf, hc]
    | some cs =>
      have hm := lookupA_mem hc
      have := hw.2 (k, cs) hm
      simp only [Bool.or_eq_true, beq_iff_eq] at this
      rcases this with h1 | h2
      · rw [hk] at h1
        cases h1
      · simp [clientsOf, hc, h2]

theorem WfP_asAddSource {s : SState} {k : String} {d : DevState}
    (hwf : WfP s) (hfresh : containsA s.handlers k = false) :
    WfP (asAddSource s k d) := by
  have hcl : clientsOf s k = [] := hwf.2 k hfresh
  constructor
  · intro q hq hlq
    rw [asAddSource] at hlq ⊢
    simp only [lookupA_insertA] at hlq
    by_cases hk : k = q
    · subst hk
      simp only [if_pos rfl] at hlq
      cases hlq
      simp [lookupA_insertA, containsA_insertA, hcl]
    · simp only [if_neg hk] at hlq
      have := hwf.1 q hq hlq
      simp [lookupA_insertA, containsA_insertA, hk, this.1, this.2]
  · intro q hq
    rw [asAddSource] at hq ⊢
    simp only [containsA_insertA] at hq
    by_cases hk : k = q
    · simp [if_pos hk] at hq
    · simp only [if_neg hk] at hq
      have := hwf.2 q hq
      simp only [clientsOf, lookupA_insertA, if_neg hk]
      exact this

theorem WfP_asRemoveSource {s s' : SState} {k : String}
    (hwf : WfP s) (h : asRemoveSource s k = some s') : WfP s' := by
  rw [asRemoveSource] at h
  cases hl : lookupA s.handlers k with
  | none => rw [hl] at h; cases h
  | some hdl =>
    rw [hl] at h
    cases h
    have hco : clientsOf s k = [hdl] := by
      simp [clientsOf, (hwf.1 k hdl hl).1]
    constructor
    · intro q hq hlq
      simp only [lookupA_eraseA] at hlq
      by_cases hk : k = q
      · simp [if_pos hk] at hlq
      · simp only [if_neg hk] at hlq
        have := hwf.1 q hq hlq
        simp [lookupA_insertA, hk, this.1, this.2]
    · intro q hq
      simp only [containsA_eraseA] at hq
      by_cases hk : k = q
      · subst hk
        have hco2 : lookupA s.clients k = some [hdl] := (hwf.1 k hdl hl).1
        simp [clientsOf, lookupA_insertA, hco2]
      · simp only [if_neg hk] at hq
        have := hwf.2 q hq
        simp only [clientsOf, lookupA_insertA, if_neg hk]
        exact this

/-! ### Frame and characterization lemmas for lifecycle events -/

theorem fireHandler_ne {pm pm' : List String} {j q : String} {e : LifeEvent}
    (h : fireHandler pm j e = some pm') (hne : j ≠ q) :
    memS pm' q = memS pm q := by
  cases e with
  | enable =>
    simp only [fireHandler, onEnable] at h
    cases h
    simp [memS_insertS, fun hh : j = q => hne hh]
  | fail =>
    simp only [fireHandler, onFail, pmDel] at h
    by_cases hm : memS pm j = true
    · rw [if_pos hm] at h
      cases h
      simp [memS_eraseS, fun hh : j = q => hne hh]
    · simp [hm] at h
  | disable =>
    simp only [fireHandler, onDisable, pmDel] at h
    by_cases hm : memS pm j = true
    · rw [if_pos hm] at h
      cases h
      simp [memS_eraseS, fun hh : j = q => hne hh]
    · simp [hm] at h
  | shutdown =>
    simp only [fireHandler, onShutdown, pmDel] at h
    by_cases hm : memS pm j = true
    · rw [if_pos hm] at h
      cases h
      simp [memS_eraseS, fun hh : j = q => hne hh]
    · simp [hm] at h

theorem fireClients_ne {j q : String} {e : LifeEvent} :
    ∀ {cs : List Nat} {pm pm' : List String},
    fireClients pm j e cs = some pm' → j ≠ q → memS pm' q = memS pm q := by
  intro cs
  induction cs with
  | nil =>
    intro pm pm' h hne
    simp only [fireClients] at h
    cases h
    rfl
  | cons c t ih =>
    intro pm pm' h hne
    simp only [fireClients] at h
    cases hf : fireHandler pm j e with
    | none => rw [hf] at h; cases h
    | some pm1 =>
      rw [hf] at h
      rw [ih h hne, fireHandler_ne hf hne]

def isEnable : LifeEvent → Bool
  | .enable => true
  | _ => false

theorem fireHandler_not_enable {pm : List String} {k : String} {e : LifeEvent}
    (he : isEnable e = false) : fireHandler pm k e = pmDel pm k := by
  cases e with
  | enable => simp [isEnable] at he
  | fail => rfl
  | disable => rfl
  | shutdown => rfl

theorem fireClients_singleton (pm : List String) (k : String) (e : LifeEvent)
    (h : Nat) : fireClients pm k e [h] = fireHandler pm k e := by
  cases hf : fireHandler pm k e <;> simp [fireClients, hf]

theorem fireEvent_absent_dev {s : SState} {k : String} {e : LifeEvent}
    (hd : lookupA s.devs k = none) : fireEvent s k e = some s := by
  simp [fireEvent, hd]

theorem fireEvent_no_handler {s : SState} {k : String} {d : DevState}
    {e : LifeEvent} (hwf : WfP s) (hd : lookupA s.devs k = some d)
    (hh : containsA s.handlers k = false) :
    fireEvent s k e =
      some { s with devs := insertA s.devs k (applyEventDev d e) } := by
  have hcl : clientsOf s k = [] := hwf.2 k hh
  have hcl2 : clientsOf { s with devs := insertA s.devs k (applyEventDev d e) } k
      = [] := hcl
  simp only [fireEvent, hd]
  rw [hcl2]
  simp [fireClients]

theorem fireEvent_handler_enable {s : SState} {k : String} {d : DevState}
    {hdl : Nat} (hwf : WfP s) (hd : lookupA s.devs k = some d)
    (hh : lookupA s.handlers k = some hdl) :
    fireEvent s k .enable =
      some { s with devs := insertA s.devs k (applyEventDev d .enable),
                    layer := insertS s.layer k } := by
  have hcl : clientsOf s k = [hdl] := by
    simp [clientsOf, (hwf.1 k hdl hh).1]
  have hcl2 : clientsOf
      { s with devs := insertA s.devs k (applyEventDev d .enable) } k
      = [hdl] := hcl
  simp only [fireEvent, hd]
  rw [hcl2, fireClients_singleton]
  simp [fireHandler, onEnable]

theorem fireEvent_handler_del_present {s : SState} {k : String} {d : DevState}
    {hdl : Nat} {e : LifeEvent} (hwf : WfP s) (hd : lookupA s.devs k = some d)
    (hh : lookupA s.handlers k = some hdl) (he : isEnable e = false)
    (hm : memS s.layer k = true) :
    fireEvent s k e =
      some { s with devs := insertA s.devs k (applyEventDev d e),
                    layer := eraseS s.layer k } := by
  have hcl : clientsOf s k = [hdl] := by
    simp [clientsOf, (hwf.1 k hdl hh).1]
  have hcl2 : clientsOf { s with devs := insertA s.devs k (applyEventDev d e) } k
      = [hdl] := hcl
  simp only [fireEvent, hd]
  rw [hcl2, fireClients_singleton, fireHandler_not_enable he]
  simp [pmDel, hm]

theorem fireEvent_handler_del_absent {s : SState} {k : String} {d : DevState}
    {hdl : Nat} {e : LifeEvent} (hwf : WfP s) (hd : lookupA s.devs k = some d)
    (hh : lookupA s.handlers k = some hdl) (he : isEnable e = false)
    (hm : memS s.layer k = false) :
    fireEvent s k e = none := by
  have hcl : clientsOf s k = [hdl] := by
    simp [clientsOf, (hwf.1 k hdl hh).1]
  have hcl2 : clientsOf { s with devs := insertA s.devs k (applyEventDev d e) } k
      = [hdl] := hcl
  simp only [fireEvent, hd]
  rw [hcl2, fireClients_singleton, fireHandler_not_enable he]
  simp [pmDel, hm]

theorem fireEvent_frame {s s' : SState} {k : String} {e : LifeEvent}
    (h : fireEvent s k e = some s') :
    s'.handlers = s.handlers ∧ s'.clients = s.clients ∧
    (∀ q, containsA s'.devs q = containsA s.devs q) := by
  rw [fireEvent] at h
  cases hd : lookupA s.devs k with
  | none =>
    rw [hd] at h
    cases h
    exact ⟨rfl, rfl, fun q => rfl⟩
  | some d =>
    rw [hd] at h
    rw [Option.map_eq_some'] at h
    obtain ⟨pm, _, hs⟩ := h
    subst hs
    refine ⟨rfl, rfl, fun q => ?_⟩
    show containsA (insertA s.devs k (applyEventDev d e)) q = containsA s.devs q
    rw [containsA_insertA]
    by_cases hk : k = q
    · subst hk
      simp [containsA, hd]
    · simp [hk]

theorem WfP_fireEvent {s s' : SState} {k : String} {e : LifeEvent}
    (hwf : WfP s) (h : fireEvent s k e = some s') : WfP s' := by
  obtain ⟨hh, hc, hdv⟩ := fireEvent_frame h
  constructor
  · intro q hq hlq
    rw [hh] at hlq
    have := hwf.1 q hq hlq
    rw [hc, hdv]
    exact this
  · intro q hq
    rw [hh] at hq
    have := hwf.2 q hq
    simp only [clientsOf, hc]
    exact this

theorem fireEvent_layer_ne {s s' : SState} {j q : String} {e : LifeEvent}
    (h : fireEvent s j e = some s') (hne : j ≠ q) :
    memS s'.layer q = memS s.layer q := by
  rw [fireEvent] at h
  cases hd : lookupA s.devs j with
  | none =>
    rw [hd] at h
    cases h
    rfl
  | some d =>
    rw [hd] at h
    rw [Option.map_eq_some'] at h
    obtain ⟨pm, hfc, hs⟩ := h
    subst hs
    exact fireClients_ne hfc hne

theorem fireEvent_layer_self {s s' : SState} {k : String} {e : LifeEvent}
    (hwf : WfP s) (h : fireEvent s k e = some s') :
    memS s'.layer k =
      if containsA s.devs k && containsA s.handlers k then isEnable e
      else memS s.layer k := by
  cases hd : lookupA s.devs k with
  | none =>
    rw [fireEvent_absent_dev hd] at h
    cases h
    simp [containsA, hd]
  | some d =>
    cases hhl : lookupA s.handlers k with
    | none =>
      have hh : containsA s.handlers k = false := by simp [containsA, hhl]
      rw [fireEvent_no_handler hwf hd hh] at h
      cases h
      simp [containsA, hd, hhl]
    | some hdl =>
      have hcond : (containsA s.devs k && containsA s.handlers k) = true := by
        simp [containsA, hd, hhl]
      cases he : isEnable e with
      | true =>
        have henb : e = LifeEvent.enable := by
          cases e <;> simp [isEnable] at he ⊢
        subst henb
        rw [fireEvent_handler_enable hwf hd hhl] at h
        cases h
        simp [hcond, memS_insertS]
      | false =>
        cases hm : memS s.layer k with
        | true =>
          rw [fireEvent_handler_del_present hwf hd hhl he hm] at h
          cases h
          simp [hcond, memS_eraseS]
        | false =>
          rw [fireEvent_handler_del_absent hwf hd hhl he hm] at h
          cases h

/-! ### What the overlay actually tracks -/

/-- Presence after a run of callbacks: the last processed lifecycle event
decides membership (enable inserts, everything else deletes); with no event
the initial presence stands. -/
def lastPresent (b : Bool) : List LifeEvent → Bool
  | [] => b
  | e :: t => lastPresent (isEnable e) t

/-- The events of a sequence that actually reach key `k`'s StateHandler:
those addressed to `k`, provided `k` has a device and a tracked handler. -/
def effEvents (s : SState) (k : String)
    (evs : List (String × LifeEvent)) : List LifeEvent :=
  if containsA s.devs k && containsA s.handlers k then
    (evs.filter (fun p => p.1 == k)).map Prod.snd
  else []

theorem layerTracksAux :
    ∀ {evs : List (String × LifeEvent)} {s s' : SState}, WfP s →
      runEvents s evs = some s' →
      ∀ k, memS s'.layer k = lastPresent (memS s.layer k) (effEvents s k evs) := by
  intro evs
  induction evs with
  | nil =>
    intro s s' hwf h k
    simp only [runEvents] at h
    cases h
    simp [effEvents, lastPresent]
  | cons je t ih =>
    obtain ⟨j, e⟩ := je
    intro s s' hwf h k
    simp only [runEvents] at h
    cases hf : fireEvent s j e with
    | none => rw [hf] at h; cases h
    | some s1 =>
      rw [hf] at h
      have hwf1 := WfP_fireEvent hwf hf
      have IH := ih hwf1 h k
      obtain ⟨hfh, hfc, hfd⟩ := fireEvent_frame hf
      have heff : effEvents s1 k t = effEvents s k t := by
        simp only [effEvents, hfh, hfd]
      rw [IH, heff]
      by_cases hjk : j = k
      · subst hjk
        cases hcond : (containsA s.devs j && containsA s.handlers j) with
        | true =>
          have hmem : memS s1.layer j = isEnable e := by
            rw [fireEvent_layer_self hwf hf, hcond, if_pos rfl]
          have hcons : effEvents s j ((j, e) :: t) = e :: effEvents s j t := by
            simp [effEvents, hcond, List.filter_cons]
          rw [hcons, hmem]
          simp [lastPresent]
        | false =>
          have hmem : memS s1.layer j = memS s.layer j := by
            rw [fireEvent_layer_self hwf hf, hcond]
            rfl
          have heq1 : effEvents s j ((j, e) :: t) = [] := by
            simp [effEvents, hcond]
          have heq2 : effEvents s j t = [] := by
            simp [effEvents, hcond]
          rw [hmem, heq1, heq2]
      · have hmem : memS s1.layer k = memS s.layer k :=
          fireEvent_layer_ne hf hjk
        have hskip : effEvents s k ((j, e) :: t) = effEvents s k t := by
          simp [effEvents, List.filter_cons, hjk]
        rw [hmem, hskip]

/-- Decidable form of the invariant claimed for HealthView: its key set
equals exactly the enabled-and-not-failed subset of the devices. -/
def hvChk (s : SState) : Bool :=
  s.devs.all (fun kd => isAvailable kd.2 == memS s.layer kd.1) &&
  s.layer.all (fun k => containsA s.devs k)

/-- C2 (amended): at every settled point reached from a well-formed settled
state by processing lifecycle callbacks, a key is present in HealthView's
overlay iff its device's last delivered lifecycle event was enable (or, with
no event delivered, iff it was present before).  This coincides with the
enabled-and-not-failed subset of the registry only as long as no enable
callback fires on a failed device. -/
theorem C2_overlay_tracks_last_event (s s' : SState)
    (evs : List (String × LifeEvent)) (hw : wfChk s = true)
    (h : runEvents s evs = some s') :
    ∀ k, memS s'.layer k = lastPresent (memS s.layer k) (effEvents s k evs) :=
  layerTracksAux (wfChk_WfP hw) h

/-- Witness for C2 (amended): one fail callback on a tracked, available
device removes it from the overlay, as `lastPresent` predicts. -/
theorem C2_overlay_tracks_last_event_witness :
    wfChk (SState.mk [("a", ⟨true, false⟩)] ["a"] [("a", 0)] [("a", [0])] 1)
      = true ∧
    memS (SState.mk [("a", ⟨true, true⟩)] [] [("a", 0)] [("a", [0])] 1).layer "a" =
      lastPresent
        (memS (SState.mk [("a", ⟨true, false⟩)] ["a"] [("a", 0)]
          [("a", [0])] 1).layer "a")
        (effEvents (SState.mk [("a", ⟨true, false⟩)] ["a"] [("a", 0)]
          [("a", [0])] 1) "a" [("a", LifeEvent.fail)]) :=
  ⟨by decide,
    C2_overlay_tracks_last_event
      (SState.mk [("a", ⟨true, false⟩)] ["a"] [("a", 0)] [("a", [0])] 1)
      (SState.mk [("a", ⟨true, true⟩)] [] [("a", 0)] [("a", [0])] 1)
      [("a", LifeEvent.fail)] (by decide) (by decide) "a"⟩

/-- Counterexample to C2 as stated: device `a` is enabled and healthy, so it
sits in the overlay; it fails (removed), then an enable callback fires while
it is still failed and reinserts it.  At this settled point the overlay
contains a key whose device is failed, so the key set is not the
enabled-and-not-failed subset. -/
theorem C2_overlay_counterexample :
    runEvents (SState.mk [("a", ⟨true, false⟩)] ["a"] [("a", 0)] [("a", [0])] 1)
        [("a", LifeEvent.fail), ("a", LifeEvent.enable)] =
      some (SState.mk [("a", ⟨true, true⟩)] ["a"] [("a", 0)] [("a", [0])] 1) ∧
    memS (SState.mk [("a", ⟨true, true⟩)] ["a"] [("a", 0)]
      [("a", [0])] 1).layer "a" = true ∧
    lookupA (SState.mk [("a", ⟨true, true⟩)] ["a"] [("a", 0)]
      [("a", [0])] 1).devs "a" = some ⟨true, true⟩ ∧
    isAvailable ⟨true, true⟩ = false ∧
    hvChk (SState.mk [("a", ⟨true, true⟩)] ["a"] [("a", 0)] [("a", [0])] 1)
      = false := by
  decide

/-! ### Exactly-one-handler bookkeeping (C4) -/

/-- The change discipline DeviceRegistry actually follows when notifying
HealthView: it only ever upserts keys it did not hold (its batch handler
adds absent keys only) and only ever deletes keys it held.  `none` marks a
batch violating that discipline. -/
def freshApplyChange (s : SState) : String × AChange → Option SState
  | (k, .deleted) =>
    if containsA s.handlers k then asRemoveSource s k else none
  | (k, .upsert d) =>
    if containsA s.handlers k then none else some (asAddSource s k d)

def freshApplyBatch : SState → List (String × AChange) → Option SState
  | s, [] => some s
  | s, c :: t => (freshApplyChange s c).bind (fun s1 => freshApplyBatch s1 t)

def freshRunBatches : SState → List (List (String × AChange)) → Option SState
  | s, [] => some s
  | s, b :: t => (freshApplyBatch s b).bind (fun s1 => freshRunBatches s1 t)

theorem freshApplyChange_step {s s1 : SState} {c : String × AChange}
    (hwf : WfP s) (h : freshApplyChange s c = some s1) :
    asApplyChange s c = some s1 ∧ WfP s1 := by
  obtain ⟨k, ch⟩ := c
  cases ch with
  | upsert d =>
    simp only [freshApplyChange] at h
    cases hc : containsA s.handlers k with
    | true => rw [hc] at h; simp at h
    | false =>
      rw [hc] at h
      simp only [if_neg (by simp : ¬ (false = true))] at h
      cases h
      exact ⟨rfl, WfP_asAddSource hwf hc⟩
  | deleted =>
    simp only [freshApplyChange] at h
    cases hc : containsA s.handlers k with
    | true =>
      rw [hc, if_pos rfl] at h
      exact ⟨h, WfP_asRemoveSource hwf h⟩
    | false => rw [hc] at h; simp at h

theorem freshApplyBatch_step {s s1 : SState} {b : List (String × AChange)}
    (hwf : WfP s) (h : freshApplyBatch s b = some s1) :
    asApplyBatch s b = some s1 ∧ WfP s1 := by
  induction b generalizing s with
  | nil =>
    simp only [freshApplyBatch] at h
    cases h
    exact ⟨rfl, hwf⟩
  | cons c t ih =>
    simp only [freshApplyBatch] at h
    cases hc : freshApplyChange s c with
    | none => rw [hc] at h; cases h
    | some sm =>
      rw [hc] at h
      obtain ⟨ha, hw1⟩ := freshApplyChange_step hwf hc
      obtain ⟨hb, hw2⟩ := ih hw1 h
      refine ⟨?_, hw2⟩
      simp only [asApplyBatch, ha]
      exact hb

/-- C4 (amended): as long as change batches follow DeviceRegistry's
discipline (upserts only for untracked keys, deletions only for tracked
ones), every tracked key has exactly its one stored StateHandler registered
as the device's sole client — the old handler is removed on delete and a
fresh one installed on add.  (A batch re-upserting a tracked key breaks
this, see the counterexample.) -/
theorem C4_exactly_one_handler (s s' : SState)
    (bss : List (List (String × AChange))) (hw : wfChk s = true)
    (h : freshRunBatches s bss = some s') :
    asRunBatches s bss = some s' ∧
    ∀ k hdl, lookupA s'.handlers k = some hdl →
      lookupA s'.clients k = some [hdl] := by
  have main : ∀ (bss : List (List (String × AChange))) (s s' : SState),
      WfP s → freshRunBatches s bss = some s' →
      asRunBatches s bss = some s' ∧ WfP s' := by
    intro bss
    induction bss with
    | nil =>
      intro s s' hwf hrun
      simp only [freshRunBatches] at hrun
      cases hrun
      exact ⟨rfl, hwf⟩
    | cons b t ih =>
      intro s s' hwf hrun
      simp only [freshRunBatches] at hrun
      cases hb : freshApplyBatch s b with
      | none => rw [hb] at hrun; cases hrun
      | some s1 =>
        rw [hb] at hrun
        obtain ⟨ha, hw1⟩ := freshApplyBatch_step hwf hb
        obtain ⟨hrest, hw2⟩ := ih s1 s' hw1 hrun
        refine ⟨?_, hw2⟩
        simp only [asRunBatches, ha]
        exact hrest
  obtain ⟨hrun, hwf'⟩ := main bss s s' (wfChk_WfP hw) h
  exact ⟨hrun, fun k hdl hk => (hwf'.1 k hdl hk).1⟩

/-- Witness for C4 (amended): adding a fresh key leaves it with exactly its
one newly created handler registered on the device. -/
theorem C4_exactly_one_handler_witness :
    wfChk asInit = true ∧
    asRunBatches asInit [[("a", AChange.upsert ⟨true, false⟩)]] =
      some (SState.mk [("a", ⟨true, false⟩)] ["a"] [("a", 0)] [("a", [0])] 1) ∧
    lookupA (SState.mk [("a", ⟨true, false⟩)] ["a"] [("a", 0)]
      [("a", [0])] 1).clients "a" = some [0] :=
  ⟨by decide,
    (C4_exactly_one_handler asInit
      (SState.mk [("a", ⟨true, false⟩)] ["a"] [("a", 0)] [("a", [0])] 1)
      [[("a", AChange.upsert ⟨true, false⟩)]] (by decide) (by decide)).1,
    (C4_exactly_one_handler asInit
      (SState.mk [("a", ⟨true, false⟩)] ["a"] [("a", 0)] [("a", [0])] 1)
      [[("a", AChange.upsert ⟨true, false⟩)]] (by decide) (by decide)).2
      "a" 0 (by decide)⟩

/-- Counterexample to C4 as stated: a batch that upserts the already-tracked
key `a` creates and registers a second StateHandler without detaching the
first, so the device ends up with two live handlers `[0, 1]` while the
tracking dict holds only the new one. -/
theorem C4_two_handlers_counterexample :
    asRunBatches asInit
      [[("a", AChange.upsert ⟨true, false⟩)],
       [("a", AChange.upsert ⟨true, false⟩)]] =
      some (SState.mk [("a", ⟨true, false⟩)] ["a"] [("a", 1)]
        [("a", [0, 1])] 2) ∧
    clientsOf (SState.mk [("a", ⟨true, false⟩)] ["a"] [("a", 1)]
      [("a", [0, 1])] 2) "a" = [0, 1] ∧
    lookupA (SState.mk [("a", ⟨true, false⟩)] ["a"] [("a", 1)]
      [("a", [0, 1])] 2).handlers "a" = some 1 := by
  decide

/-- C5 (amended): for a tracked device, the enable callback always
(re)inserts the key into the overlay; the fail, disable and shutdown
callbacks delete the key when it is present, but their `del pm[key]` is
unguarded, so when the key is absent from the overlay each of them raises a
missing-key fault instead of completing. -/
theorem C5_callback_effects (s : SState) (k : String) (d : DevState)
    (hdl : Nat) (hw : wfChk s = true) (hd : lookupA s.devs k = some d)
    (hh : lookupA s.handlers k = some hdl) :
    fireEvent s k .enable =
      some { s with devs := insertA s.devs k (applyEventDev d .enable),
                    layer := insertS s.layer k } ∧
    (memS s.layer k = true →
      fireEvent s k .fail =
        some { s with devs := insertA s.devs k (applyEventDev d .fail),
                      layer := eraseS s.layer k } ∧
      fireEvent s k .disable =
        some { s with devs := insertA s.devs k (applyEventDev d .disable),
                      layer := eraseS s.layer k } ∧
      fireEvent s k .shutdown =
        some { s with devs := insertA s.devs k (applyEventDev d .shutdown),
                      layer := eraseS s.layer k }) ∧
    (memS s.layer k = false →
      fireEvent s k .fail = none ∧
      fireEvent s k .disable = none ∧
      fireEvent s k .shutdown = none) := by
  have hwf := wfChk_WfP hw
  refine ⟨fireEvent_handler_enable hwf hd hh, fun hm => ⟨?_, ?_, ?_⟩,
    fun hm => ⟨?_, ?_, ?_⟩⟩
  · exact fireEvent_handler_del_present hwf hd hh (by rfl) hm
  · exact fireEvent_handler_del_present hwf hd hh (by rfl) hm
  · exact fireEvent_handler_del_present hwf hd hh (by rfl) hm
  · exact fireEvent_handler_del_absent hwf hd hh (by rfl) hm
  · exact fireEvent_handler_del_absent hwf hd hh (by rfl) hm
  · exact fireEvent_handler_del_absent hwf hd hh (by rfl) hm

/-- Witness for C5 (amended): with `a` present in the overlay, the fail
callback deletes it. -/
theorem C5_callback_effects_witness :
    memS (SState.mk [("a", ⟨true, false⟩)] ["a"] [("a", 0)]
      [("a", [0])] 1).layer "a" = true ∧
    fireEvent (SState.mk [("a", ⟨true, false⟩)] ["a"] [("a", 0)]
        [("a", [0])] 1) "a" .fail =
      some (SState.mk [("a", ⟨true, true⟩)] [] [("a", 0)] [("a", [0])] 1) := by
  have H := (C5_callback_effects
    (SState.mk [("a", ⟨true, false⟩)] ["a"] [("a", 0)] [("a", [0])] 1)
    "a" ⟨true, false⟩ 0 (by decide) (by decide) (by decide)).2.1 (by decide)
  refine ⟨by decide, ?_⟩
  rw [H.1]
  decide

/-- Counterexample to C5 as stated: device `a` is added while disabled, so
its key is absent from the overlay; its fail callback then runs
`del pm["a"]` on the overlay and raises a missing-key fault instead of
completing without error. -/
theorem C5_callback_fault_counterexample :
    isAvailable ⟨false, false⟩ = false ∧
    fireEvent (asAddSource asInit "a" ⟨false, false⟩) "a" .fail = none := by
  decide

/-! ## ReportingEngine (owrx/reporting.py)

Reporters are identified by numbers and expose their supported-mode set;
a spot event is a record of string fields.  `spot` iterates the registered
reporters in order and, per iteration, evaluates `spot["mode"]` — a raised
`KeyError` (missing field) aborts the loop with no validation having
happened before it.  The returned list is the delivery log: the reporters
that received the event, in order. -/

structure Reporter where
  rid : Nat
  modes : List String
  deriving DecidableEq, Repr

/-- `Reporter.getSupportedModes`. -/
def getSupportedModes (r : Reporter) : List String := r.modes

/-- `ReportingEngine.spot`: `for r in self.reporters: if spot["mode"] in
r.getSupportedModes(): r.spot(spot)`. -/
def spotEngine : List Reporter → List (String × String) →
    Except Unit (List Nat)
  | [], _ => .ok []
  | r :: rs, ev =>
    match lookupA ev "mode" with
    | none => .error ()
    | some m =>
      match spotEngine rs ev with
      | .error e => .error e
      | .ok rest =>
        .ok (if memS (getSupportedModes r) m then r.rid :: rest else rest)

/-- C9: a spot event carrying mode `M` is delivered to exactly the reporters
whose supported-mode set contains `M`, in list order, each once per list
occurrence, and to no reporter whose set excludes `M`: the delivery log is
the order-preserving filter of the reporter list. -/
theorem C9_spot_delivery (rs : List Reporter) (ev : List (String × String))
    (m : String) (h : lookupA ev "mode" = some m) :
    spotEngine rs ev =
      .ok ((rs.filter (fun r => memS (getSupportedModes r) m)).map
        Reporter.rid) := by
  induction rs with
  | nil => rfl
  | cons r t ih =>
    rw [spotEngine, h, ih]
    by_cases hm : memS (getSupportedModes r) m = true
    · simp [List.filter_cons, hm]
    · simp only [Bool.not_eq_true] at hm
      simp [List.filter_cons, hm]

/-- Witness for C9: reporters R1 (modes FT8, FT4) and R2 (modes WSPR); a
spot with mode FT8 reaches R1 only. -/
theorem C9_spot_delivery_witness :
    lookupA [("mode", "FT8")] "mode" = some "FT8" ∧
    spotEngine [⟨1, ["FT8", "FT4"]⟩, ⟨2, ["WSPR"]⟩] [("mode", "FT8")] =
      .ok [1] := by
  refine ⟨by decide, ?_⟩
  have H := C9_spot_delivery [⟨1, ["FT8", "FT4"]⟩, ⟨2, ["WSPR"]⟩]
    [("mode", "FT8")] "FT8" (by decide)
  rw [H]
  rfl

/-- C8 (amended): a spot event lacking a mode field is not validated at the
boundary; the missing-field fault is raised only when the first reporter's
filter evaluates `spot["mode"]`, so with no reporters registered the call
silently succeeds, and with reporters registered it aborts with the
undefined-field fault; in either case no reporter receives the event. -/
theorem C8_missing_mode_fault (rs : List Reporter)
    (ev : List (String × String)) (h : lookupA ev "mode" = none) :
    spotEngine rs ev = match rs with
      | [] => .ok []
      | _ :: _ => .error () := by
  cases rs with
  | nil => rfl
  | cons r t => rw [spotEngine, h]

/-- Witness for C8 (amended): one registered reporter and a modeless spot
produce the missing-field fault. -/
theorem C8_missing_mode_fault_witness :
    lookupA ([] : List (String × String)) "mode" = none ∧
    spotEngine [⟨1, ["FT8"]⟩] [] = .error () :=
  ⟨by decide, C8_missing_mode_fault [⟨1, ["FT8"]⟩] [] (by decide)⟩

/-- Counterexample to C8 as stated: no boundary validation exists — a
modeless spot is silently accepted when the reporter list is empty, and with
a reporter registered the failure is the propagated missing-field fault
(`KeyError`), not a typed validation error raised before iteration. -/
theorem C8_no_boundary_validation_counterexample :
    spotEngine [] [] = .ok [] ∧
    spotEngine [⟨1, ["FT8"]⟩] [] = .error () := by
  constructor <;> rfl

/-! ## ProfileCatalog: `AvailableProfiles` (owrx/sdr.py)

Python dict keys can be of mixed type, and `_addSource` stores the overlay
entry under the stringified key `"{}".format(key)` while `_removeSource`
deletes under the raw key; `PKey` captures this by distinguishing string
device-ids from other (numeric) ones.  Subscriptions are identified by the
numbers handed out at wiring time; cancellations are appended to
`cancelLog` in the order `cancel()` is invoked. -/

inductive PKey
  | str (s : String)
  | num (n : Nat)
  deriving DecidableEq, Repr

/-- The stringification `"{}".format(key)`. -/
def fmtKey : PKey → String
  | .str s => s
  | .num n => toString n

structure APState where
  layer : List (PKey × String)
  subs : List (PKey × List Nat)
  nextSub : Nat
  cancelLog : List Nat
  deriving DecidableEq, Repr

def subsOf (s : APState) (k : PKey) : List Nat :=
  (lookupA s.subs k).getD []

/-- `AvailableProfiles._addSource`: the overlay entry is stored under the
stringified key, the (single) name subscription under the raw key. -/
def apAddSource (s : APState) (k : PKey) (nm : String) : APState :=
  { layer := insertA s.layer (PKey.str (fmtKey k)) nm,
    subs := insertA s.subs k [s.nextSub],
    nextSub := s.nextSub + 1,
    cancelLog := s.cancelLog }

/-- `list.pop()`: removes and returns the last element. -/
def popLast : List Nat → Option (Nat × List Nat)
  | [] => none
  | [x] => some (x, [])
  | x :: y :: t =>
    match popLast (y :: t) with
    | some (z, r) => some (z, x :: r)
    | none => none

/-- The `while self.subscriptions[key]: ....pop().cancel()` drain loop; the
fuel is the list length, i.e. the number of loop iterations.  Returns the
subscriptions in cancellation order. -/
def drainFuel : Nat → List Nat → List Nat
  | 0, _ => []
  | n + 1, l =>
    match popLast l with
    | none => []
    | some (z, r) => z :: drainFuel n r

def drain (l : List Nat) : List Nat := drainFuel l.length l

/-- `AvailableProfiles._removeSource`: `del self._layer[key]` uses the raw
key unconditionally (faulting when absent); then, if a subscription list
exists for the key, it is drained from the end, each handle cancelled, and
the entry discarded. -/
def apRemoveSource (s : APState) (k : PKey) : Option APState :=
  match lookupA s.layer k with
  | none => none
  | some _ =>
    let s1 : APState := { s with layer := eraseA s.layer k }
    some (if containsA s1.subs k then
      { s1 with cancelLog := s1.cancelLog ++ drain (subsOf s1 k),
                subs := eraseA s1.subs k }
    else s1)

theorem popLast_append (l : List Nat) (x : Nat) :
    popLast (l ++ [x]) = some (x, l) := by
  induction l with
  | nil => rfl
  | cons a t ih =>
    cases t with
    | nil => rfl
    | cons b u =>
      have ih2 : popLast (b :: (u ++ [x])) = some (x, b :: u) := ih
      show popLast (a :: b :: (u ++ [x])) = some (x, a :: b :: u)
      rw [popLast, ih2]

theorem drainFuel_reverse :
    ∀ (n : Nat) (l : List Nat), l.length ≤ n → drainFuel n l = l.reverse := by
  intro n
  induction n with
  | zero =>
    intro l h
    have : l = [] := List.eq_nil_of_length_eq_zero (Nat.le_zero.mp h)
    subst this
    rfl
  | succ n ih =>
    intro l h
    rcases List.eq_nil_or_concat l with rfl | ⟨r, x, rfl⟩
    · rfl
    · rw [List.concat_eq_append] at h ⊢
      rw [drainFuel, popLast_append]
      have hr : r.length ≤ n := by
        have := h
        simp only [List.length_append, List.length_singleton] at this
        omega
      show x :: drainFuel n r = (r ++ [x]).reverse
      rw [ih r hr]
      simp

theorem drain_reverse (l : List Nat) : drain l = l.reverse :=
  drainFuel_reverse l.length l (Nat.le_refl _)

/-- C7: removing a key whose overlay entry exists deletes the overlay entry,
cancels every stored subscription for that key in reverse
(most-recently-added first) order, and discards the subscription entry, so
zero subscriptions remain registered for the key. -/
theorem C7_remove_cancels_all (s : APState) (k : PKey) (v : String)
    (h : lookupA s.layer k = some v) :
    apRemoveSource s k =
      some { layer := eraseA s.layer k, subs := eraseA s.subs k,
             nextSub := s.nextSub,
             cancelLog := s.cancelLog ++ (subsOf s k).reverse } ∧
    lookupA (eraseA s.subs k) k = none := by
  constructor
  · rw [apRemoveSource, h]
    cases hc : lookupA s.subs k with
    | some l =>
      have hcon : containsA s.subs k = true := by simp [containsA, hc]
      simp [hcon, subsOf, hc, drain_reverse]
    | none =>
      have hcon : containsA s.subs k = false := by simp [containsA, hc]
      simp [hcon, subsOf, hc, eraseA_of_not_mem s.subs k hc]
  · rw [lookupA_eraseA]
    simp

/-- Witness for C7 at a concrete catalog state with two stored
subscriptions: they are cancelled most-recently-added first. -/
theorem C7_remove_cancels_all_witness :
    lookupA [(PKey.str "a", "Dev A")] (PKey.str "a") = some "Dev A" ∧
    apRemoveSource
        (APState.mk [(PKey.str "a", "Dev A")] [(PKey.str "a", [3, 7])] 8 [])
        (PKey.str "a") =
      some (APState.mk [] [] 8 [7, 3]) := by
  have H := C7_remove_cancels_all
    (APState.mk [(PKey.str "a", "Dev A")] [(PKey.str "a", [3, 7])] 8 [])
    (PKey.str "a") "Dev A" (by decide)
  refine ⟨by decide, ?_⟩
  rw [H.1]
  rfl

/-- C10: for a string device-id absent from the catalog, the overlay entry
is stored under the stringified key — which coincides with the raw key — so
adding the device and then removing it restores both the overlay and the
subscription map exactly (the removal deleting the overlay entry under the
raw key); only the subscription counter and the cancellation log record that
the round trip happened. -/
theorem C10_string_key_roundtrip (s : APState) (ds nm : String)
    (hl : lookupA s.layer (PKey.str ds) = none)
    (hs : lookupA s.subs (PKey.str ds) = none) :
    PKey.str (fmtKey (PKey.str ds)) = PKey.str ds ∧
    apRemoveSource (apAddSource s (PKey.str ds) nm) (PKey.str ds) =
      some { layer := s.layer, subs := s.subs, nextSub := s.nextSub + 1,
             cancelLog := s.cancelLog ++ [s.nextSub] } := by
  refine ⟨rfl, ?_⟩
  have e1 : eraseA (insertA s.layer (PKey.str ds) nm) (PKey.str ds) = s.layer :=
    eraseA_insertA_fresh _ _ _ hl
  have e2 : eraseA (insertA s.subs (PKey.str ds) [s.nextSub]) (PKey.str ds)
      = s.subs := eraseA_insertA_fresh _ _ _ hs
  simp [apAddSource, apRemoveSource, fmtKey, lookupA_insertA, containsA,
    subsOf, e1, e2, drain_reverse]

/-- Witness for C10 from the empty catalog. -/
theorem C10_string_key_roundtrip_witness :
    lookupA ([] : List (PKey × String)) (PKey.str "a") = none ∧
    apRemoveSource (apAddSource (APState.mk [] [] 0 []) (PKey.str "a") "Dev A")
        (PKey.str "a") =
      some (APState.mk [] [] 1 [0]) := by
  have H := (C10_string_key_roundtrip (APState.mk [] [] 0 []) "a" "Dev A"
    (by decide) (by decide)).2
  refine ⟨by decide, ?_⟩
  rw [H]
  decide
